import Mathlib

/-!
Verification of the basic-algebra teaching notebooks.

The repository contains three self-contained Python notebooks:
  * a run-length encoder/decoder (`encode`, `decode`),
  * a Hamming-code implementation (`calculate_parity_bits`,
    `position_parity_bits`, `calculate_parity_values`,
    `detect_correct_error`, `remove_parity_bits`),
  * a toy Diffie-Hellman key-exchange simulation
    (`__produce_exchange_function`, `generate_keys`).

This file gives a shallow embedding of those functions and proves the
stated properties.  Bit strings (Python strings of the characters 0 and 1)
are modelled as `List Bool`, general text as `List Char`, Python ints as
`ℕ`, and a raised exception as `none`/`Option`.  Python indexing from the
end, `s[-j]`, is `s.getD (s.length - j)`; all claims only exercise the
in-range regime `1 ≤ j ≤ s.length`, where `ℕ` truncated subtraction agrees
with Python index arithmetic.

The file is organised as: all definitions first (the embedded program,
then derived notions used only in specifications and proofs), then all
lemmas and theorems.
-/

namespace BasicAlgebra

/-! # Definitions -/

/-! ## Diffie-Hellman key exchange (10_diffie_hellman.ipynb) -/

/-- Source: `__produce_exchange_function(power, generator=3,
prime_modulus=136279841)`, returning `(generator**power) % prime_modulus`.
The Python default arguments are written out explicitly at call sites. -/
def produce_exchange_function (power generator prime_modulus : ℕ) : ℕ :=
  generator ^ power % prime_modulus

/-- Source: `generate_keys(key_size)`.  The two private keys drawn by
`__generate_random_number` are made explicit parameters (they are the only
random inputs), and the wall-clock `generation_time` is an opaque
parameter carried into the result tuple.  The raised `Exception` on
disagreeing public keys is modelled by `none`. -/
def generate_keys (a_private_key b_private_key generation_time : ℕ) :
    Option (ℕ × ℕ × ℕ × ℕ × ℕ × ℕ) :=
  let a_output := produce_exchange_function a_private_key 3 136279841
  let b_output := produce_exchange_function b_private_key 3 136279841
  let a_public_key := produce_exchange_function a_private_key b_output 136279841
  let b_public_key := produce_exchange_function b_private_key a_output 136279841
  if a_public_key ≠ b_public_key then none
  else some (a_private_key, b_private_key, a_output, b_output, a_public_key,
    generation_time)

/-! ## Hamming code (error_correcting notebook)

Bit positions are counted from 1 at the right end of the string, as in the
source, which accesses `code[-j]`. -/

/-- Helper for `calculate_parity_bits`: the Python `while` loop.  The loop
increments `p` and raises once `p` exceeds 10, i.e. after the tenth
successful increment starting from `p = 0`; `fuel` counts the increments
still allowed before the raise, so the top-level call uses `fuel = 10`.
`none` models the raised `ValueError`. -/
def calculate_parity_bits_aux (m : ℕ) : ℕ → ℕ → Option ℕ
  | p, fuel =>
    if 2 ^ p < m + p + 1 then
      match fuel with
      | 0 => none
      | f + 1 => calculate_parity_bits_aux m (p + 1) f
    else some p

/-- Source: `calculate_parity_bits(m)`: the minimum number of parity bits
required to encode `m` data bits, raising (`none`) when more than 10
parity bits would be needed. -/
def calculate_parity_bits (m : ℕ) : Option ℕ :=
  calculate_parity_bits_aux m 0 10

/-- Python `code[-j]` for `1 ≤ j ≤ len(code)`: the bit at position `j`
counted from 1 at the right. -/
def pyGet (code : List Bool) (j : ℕ) : Bool :=
  code.getD (code.length - j) false

/-- Source: `position_parity_bits(data, p)`: iterate `i` over
`range(1, m + p + 1)` with state `(j, k, result)`, appending a placeholder
`0` when `i` equals the next power of two `2 ** j` and the data bit
`data[-k]` otherwise, then reverse the accumulated string. -/
def position_parity_bits (data : List Bool) (p : ℕ) : List Bool :=
  let m := data.length
  let final := (List.range' 1 (m + p)).foldl
    (fun s i =>
      if i = 2 ^ s.1 then (s.1 + 1, s.2.1, s.2.2 ++ [false])
      else (s.1, s.2.1 + 1, s.2.2 ++ [pyGet data s.2.1]))
    ((0, 1, []) : ℕ × ℕ × List Bool)
  final.2.2.reverse

/-- The inner loop shared by `calculate_parity_values` and
`detect_correct_error`: `val = 0; for j in range(1, n + 1): if
j & 2 ** i == 2 ** i: val ^= int(code[-j])`, with `n = len(code)`. -/
def parity_val (code : List Bool) (i : ℕ) : Bool :=
  (List.range' 1 code.length).foldl
    (fun val j => if j &&& 2 ^ i = 2 ^ i then xor val (pyGet code j) else val)
    false

/-- The loop body of `calculate_parity_values` for a fixed pre-loop length
`n = len(code)`: recompute the parity `val` of the positions covered by
bit `i` over the current code `c` (reading `c[-j]` as `c.getD (n - j)`),
then write it at position `2 ** i` from the right via the slice-splice
`c[:n-(2**i)] + str(val) + c[n-(2**i)+1:]`. -/
def cpvStep (n : ℕ) : List Bool → ℕ → List Bool :=
  fun c i =>
    let val := (List.range' 1 n).foldl
      (fun val j => if j &&& 2 ^ i = 2 ^ i then xor val (c.getD (n - j) false) else val)
      false
    c.take (n - 2 ^ i) ++ [val] ++ c.drop (n - 2 ^ i + 1)

/-- Source: `calculate_parity_values(code, p)`: for each `i < p` recompute
the parity over the current code and write it at position `2 ** i` from
the right.  The bound `n = len(code)` is captured once before the loop, so
the inner loop and the slice both use the original length, exactly as in
the source. -/
def calculate_parity_values (code : List Bool) (p : ℕ) : List Bool :=
  (List.range p).foldl (cpvStep code.length) code

/-- The syndrome loop of `detect_correct_error`: `error_pos += val * 2**i`
for each parity bit `i < p`, with `val` the recomputed parity. -/
def error_pos (code : List Bool) (p : ℕ) : ℕ :=
  (List.range p).foldl
    (fun acc i => acc + (cond (parity_val code i) 1 0) * 2 ^ i)
    0

/-- Source: `detect_correct_error(code, p)`: compute the syndrome
`error_pos`; if nonzero, flip the bit at that position from the right via
`code[:n - error_pos] + str(1 - int(code[n - error_pos])) + code[n - error_pos + 1:]`,
else return the code unchanged.  Here `n = len(code)` is exact, so the
syndrome loop is literally `error_pos code p`. -/
def detect_correct_error (code : List Bool) (p : ℕ) : List Bool :=
  let n := code.length
  let e := error_pos code p
  if e ≠ 0 then
    code.take (n - e) ++ [!(code.getD (n - e) false)] ++ code.drop (n - e + 1)
  else code

/-- Source: `remove_parity_bits(code, p)`: drop the characters at the
left-indexed positions `code_len - 2**i` for `i < p` (the parity
positions), keeping the rest in order. -/
def remove_parity_bits (code : List Bool) (p : ℕ) : List Bool :=
  let parity_positions := ((List.range p).map (fun i => 2 ^ i)).map
    (fun i => code.length - i)
  (List.range code.length).foldl
    (fun decoded i =>
      if i ∈ parity_positions then decoded else decoded ++ [code.getD i false])
    []

/-- Source: `add_noise(code)` from the demo cell, with the randomly drawn
`noise_position` (a left index `< len(code)`) made explicit: flip one bit
via `code[:pos] + str(1 - int(code[pos])) + code[pos+1:]`. -/
def add_noise (code : List Bool) (noise_position : ℕ) : List Bool :=
  code.take noise_position ++ [!(code.getD noise_position false)] ++
    code.drop (noise_position + 1)

/-! ## Run-length encoding (08_encode_decode.ipynb)

Python strings are modelled as `List Char`; the empty-string sentinel used
for `prev_char` / `last_char` is `none` (a Python one-character string
never equals `''`, and `Option Char` makes that explicit).  `c.isdigit()`
is modelled as `Char.isDigit` (the encoded alphabets in all claims are
ASCII). -/

/-- Decimal rendering, fuel-based so that it reduces by evaluation; the
fuel always suffices because `n / 10 < n` for `n ≥ 1`. -/
def natToDigitCharsAux : ℕ → ℕ → List Char
  | _, 0 => []
  | 0, _ + 1 => []
  | fuel + 1, n + 1 =>
    natToDigitCharsAux fuel ((n + 1) / 10) ++ [Nat.digitChar ((n + 1) % 10)]

/-- Python `str(n)` for `n ≥ 1` (the source only renders counters `> 1`):
the decimal digits, most significant first. -/
def natToDigitChars (n : ℕ) : List Char :=
  natToDigitCharsAux n n

/-- Python `int(s)` on a string of decimal digits. -/
def parseNat (s : List Char) : ℕ :=
  s.foldl (fun acc c => acc * 10 + (c.toNat - 48)) 0

/-- Source: `__encode_char_segment(char, counter)`:
`char + (str(counter) if counter > 1 else '')`. -/
def encode_char_segment (char : Option Char) (counter : ℕ) : List Char :=
  (match char with
   | none => []
   | some c => [c]) ++ (if counter > 1 then natToDigitChars counter else [])

/-- The loop body of `encode`: state `(output, prev_char, counter)`;
increment the counter on a repeated character, otherwise flush the
previous segment and restart the counter at 1. -/
def encode_step (s : List Char × Option Char × ℕ) (c : Char) :
    List Char × Option Char × ℕ :=
  if some c = s.2.1 then (s.1, s.2.1, s.2.2 + 1)
  else (s.1 ++ encode_char_segment s.2.1 s.2.2, some c, 1)

/-- Source: `encode(text)`: fold `encode_step` over the characters from
the initial state `("", '', 0)`, flushing the final segment at the end. -/
def encode (text : List Char) : List Char :=
  let final := text.foldl encode_step (([], none, 0) : List Char × Option Char × ℕ)
  final.1 ++ encode_char_segment final.2.1 final.2.2

/-- Source: `__decode_char_segment(char, counter)`:
`counter = int(counter) if counter != "" else 1` then `char * counter`. -/
def decode_char_segment (char : Option Char) (counter : List Char) : List Char :=
  let cnt := if counter ≠ [] then parseNat counter else 1
  match char with
  | none => []
  | some c => List.replicate cnt c

/-- The loop body of `decode`: state `(output, last_char, counter)`;
append a digit character to the counter string, otherwise flush the
previous segment and reset the counter. -/
def decode_step (s : List Char × Option Char × List Char) (c : Char) :
    List Char × Option Char × List Char :=
  if c.isDigit then (s.1, s.2.1, s.2.2 ++ [c])
  else (s.1 ++ decode_char_segment s.2.1 s.2.2, some c, [])

/-- Source: `decode(text)`: fold `decode_step` over the characters from
the initial state `("", '', "")`, flushing the final segment at the
end. -/
def decode (text : List Char) : List Char :=
  let final := text.foldl decode_step
    (([], none, []) : List Char × Option Char × List Char)
  final.1 ++ decode_char_segment final.2.1 final.2.2

/-! ## Derived notions used in specifications and proofs -/

/-- The maximal runs of a text, from a seeded current run `(c, k)`. -/
def runsAux : Char → ℕ → List Char → List (Char × ℕ)
  | c, k, [] => [(c, k)]
  | c, k, d :: rest =>
    if d = c then runsAux c (k + 1) rest else (c, k) :: runsAux d 1 rest

/-- The maximal runs of a text: `runs "AAB" = [(A, 2), (B, 1)]`. -/
def runs : List Char → List (Char × ℕ)
  | [] => []
  | c :: rest => runsAux c 1 rest

/-- Rendering a run list the way `encode` does: each run becomes its
symbol followed by the decimal count when the count exceeds 1. -/
def renderRuns (rs : List (Char × ℕ)) : List Char :=
  (rs.map (fun s => encode_char_segment (some s.1) s.2)).flatten

/-- Expanding a run list back into text. -/
def unrender (rs : List (Char × ℕ)) : List Char :=
  (rs.map (fun s => List.replicate s.2 s.1)).flatten

/-- The validity notion used verbatim by the claim about
`encode ∘ decode`: the string splits into segments, each a non-digit
symbol possibly followed by digit characters. -/
def validEncodedSegments (e : List Char) : Prop :=
  ∃ segs : List (Char × List Char),
    (∀ s ∈ segs, s.1.isDigit = false ∧ ∀ c ∈ s.2, c.isDigit = true) ∧
    e = (segs.map (fun s => s.1 :: s.2)).flatten

/-- `q` is a power of two.  The exponent search is bounded by `q` itself
since `l < 2 ^ l`. -/
def isPow2 (q : ℕ) : Bool :=
  (List.range (q + 1)).any (fun l => 2 ^ l == q)

/-- The number of powers of two in `[1, t]`. -/
def numPows : ℕ → ℕ
  | 0 => 0
  | t + 1 => numPows t + (if isPow2 (t + 1) then 1 else 0)

/-- The positions in `[1, n]` that are not powers of two, in descending
order (the left-to-right order of a codeword of length `n`). -/
def nonpows : ℕ → List ℕ
  | 0 => []
  | n + 1 => if isPow2 (n + 1) then nonpows n else (n + 1) :: nonpows n

/-- The length-`n` bit string whose bit at position `q` from the right is
`f q`; the canonical form in which codewords are analysed. -/
def ofRight (n : ℕ) (f : ℕ → Bool) : List Bool :=
  (List.range n).map (fun t => f (n - t))

/-- Pointwise update of a right-position-indexed bit assignment. -/
def updf (f : ℕ → Bool) (q : ℕ) (v : Bool) : ℕ → Bool :=
  fun x => if x = q then v else f x

/-- The bit that `position_parity_bits data p` places at position `q` from
the right: a `0` placeholder at powers of two, and the next data bit (the
`q - numPows q`-th from the right of `data`) elsewhere. -/
def entryOf (data : List Bool) : ℕ → Bool :=
  fun q => if isPow2 q then false else pyGet data (q - numPows q)

/-- XOR of a list of bits. -/
def xorAll (l : List Bool) : Bool :=
  l.foldr xor false

/-- The parity, over a length-`n` assignment `f`, of the positions in
`[1, n]` whose binary index has bit `i` set: the closed form of
`parity_val`. -/
def psum (n : ℕ) (f : ℕ → Bool) (i : ℕ) : Bool :=
  xorAll (((List.range' 1 n).filter (fun j => j.testBit i)).map f)

/-! # Theorems -/

/-! ## Diffie-Hellman -/

/-- The two modular exponentiations commute: this is the algebraic heart of
the key exchange. -/
lemma exchange_comm (a b : ℕ) :
    produce_exchange_function b (produce_exchange_function a 3 136279841) 136279841 =
      produce_exchange_function a (produce_exchange_function b 3 136279841) 136279841 := by
  unfold produce_exchange_function
  rw [← Nat.pow_mod, ← Nat.pow_mod, ← pow_mul, ← pow_mul, Nat.mul_comm]

/-- C2: for every pair of positive private exponents, raising the base 3 to
`a` modulo 136279841 and then that output to `b` modulo 136279841 yields
the same value as the two exponentiations in the other order, so the two
public keys computed by `generate_keys` agree on every run. -/
theorem public_keys_agree (a b : ℕ) (ha : 0 < a) (hb : 0 < b) :
    produce_exchange_function b (produce_exchange_function a 3 136279841) 136279841 =
      produce_exchange_function a (produce_exchange_function b 3 136279841) 136279841 :=
  exchange_comm a b

/-- Witness for C2 at the concrete exponents 5 and 7. -/
theorem public_keys_agree_witness :
    produce_exchange_function 7 (produce_exchange_function 5 3 136279841) 136279841 =
      produce_exchange_function 5 (produce_exchange_function 7 3 136279841) 136279841 :=
  public_keys_agree 5 7 (by decide) (by decide)

/-- C8: `generate_keys` raises exactly when the two derived public keys
disagree (the `if` guard of the model); since they are always equal, the
error branch is unreachable and `generate_keys` always returns its
6-tuple normally. -/
theorem generate_keys_total (a b t : ℕ) :
    generate_keys a b t = some (a, b,
      produce_exchange_function a 3 136279841,
      produce_exchange_function b 3 136279841,
      produce_exchange_function a (produce_exchange_function b 3 136279841) 136279841,
      t) := by
  unfold generate_keys
  rw [if_neg]
  simp only [ne_eq, exchange_comm, not_true_eq_false, not_false_eq_true]

/-! ## Number of parity bits -/

/-- Inversion: a successful run of the loop returns a `p` that satisfies
the bound and is minimal among values reachable from the start. -/
lemma calculate_parity_bits_aux_some_inv (m : ℕ) :
    ∀ fuel p0 r, calculate_parity_bits_aux m p0 fuel = some r →
      p0 ≤ r ∧ m + r + 1 ≤ 2 ^ r ∧
        ∀ q, p0 ≤ q → q < r → 2 ^ q < m + q + 1 := by
  intro fuel
  induction fuel with
  | zero =>
    intro p0 r h
    rw [calculate_parity_bits_aux] at h
    by_cases hc : 2 ^ p0 < m + p0 + 1
    · simp [hc] at h
    · simp [hc] at h
      subst h
      exact ⟨le_refl _, not_lt.mp hc, fun q hq1 hq2 => absurd (lt_of_le_of_lt hq1 hq2) (lt_irrefl _)⟩
  | succ f ih =>
    intro p0 r h
    rw [calculate_parity_bits_aux] at h
    by_cases hc : 2 ^ p0 < m + p0 + 1
    · simp [hc] at h
      obtain ⟨h1, h2, h3⟩ := ih (p0 + 1) r h
      refine ⟨le_trans (Nat.le_succ _) h1, h2, fun q hq1 hq2 => ?_⟩
      rcases Nat.eq_or_lt_of_le hq1 with heq | hlt
      · rwa [← heq]
      · exact h3 q hlt hq2
    · simp [hc] at h
      subst h
      exact ⟨le_refl _, not_lt.mp hc, fun q hq1 hq2 => absurd (lt_of_le_of_lt hq1 hq2) (lt_irrefl _)⟩

/-- Construction: if `r` is reachable within the fuel, every value below it
fails the bound and `r` satisfies it, then the loop returns `r`. -/
lemma calculate_parity_bits_aux_eq_some (m : ℕ) :
    ∀ fuel p0 r, p0 ≤ r → r ≤ p0 + fuel →
      (∀ q, p0 ≤ q → q < r → 2 ^ q < m + q + 1) →
      m + r + 1 ≤ 2 ^ r →
      calculate_parity_bits_aux m p0 fuel = some r := by
  intro fuel
  induction fuel with
  | zero =>
    intro p0 r h1 h2 h3 h4
    have : p0 = r := le_antisymm h1 (by simpa using h2)
    subst this
    rw [calculate_parity_bits_aux]
    simp [not_lt.mpr h4]
  | succ f ih =>
    intro p0 r h1 h2 h3 h4
    rw [calculate_parity_bits_aux]
    rcases Nat.eq_or_lt_of_le h1 with heq | hlt
    · subst heq
      simp [not_lt.mpr h4]
    · have hc : 2 ^ p0 < m + p0 + 1 := h3 p0 (le_refl _) hlt
      simp only [hc, if_true]
      exact ih (p0 + 1) r hlt (by omega)
        (fun q hq1 hq2 => h3 q (le_trans (Nat.le_succ _) hq1) hq2) h4

/-- If the bound fails everywhere the fuel can reach, the loop raises. -/
lemma calculate_parity_bits_aux_eq_none (m : ℕ) :
    ∀ fuel p0, (∀ q, p0 ≤ q → q ≤ p0 + fuel → 2 ^ q < m + q + 1) →
      calculate_parity_bits_aux m p0 fuel = none := by
  intro fuel
  induction fuel with
  | zero =>
    intro p0 h
    rw [calculate_parity_bits_aux]
    simp [h p0 (le_refl _) (by omega)]
  | succ f ih =>
    intro p0 h
    rw [calculate_parity_bits_aux]
    simp only [h p0 (le_refl _) (by omega), if_true]
    exact ih (p0 + 1) (fun q hq1 hq2 => h q (le_trans (Nat.le_succ _) hq1) (by omega))

/-- C6: whenever `calculate_parity_bits` returns a value `p`, it is the
minimum non-negative integer with `2 ^ p ≥ m + p + 1`; in particular
`calculate_parity_bits 4 = some 3`. -/
theorem calculate_parity_bits_minimal :
    (∀ m p : ℕ, calculate_parity_bits m = some p →
      m + p + 1 ≤ 2 ^ p ∧ ∀ q : ℕ, m + q + 1 ≤ 2 ^ q → p ≤ q) ∧
    calculate_parity_bits 4 = some 3 := by
  constructor
  · intro m p h
    obtain ⟨_, h2, h3⟩ := calculate_parity_bits_aux_some_inv m 10 0 p h
    refine ⟨h2, fun q hq => ?_⟩
    by_contra hqp
    exact absurd hq (not_le.mpr (h3 q (Nat.zero_le _) (not_le.mp hqp)))
  · decide

/-- Witness for C6: instantiating the minimality statement at `m = 4`,
`p = 3` (discharging the hypothesis by evaluation) and then at `q = 5`. -/
theorem calculate_parity_bits_minimal_witness :
    4 + 3 + 1 ≤ 2 ^ 3 ∧ 3 ≤ 5 :=
  ⟨(calculate_parity_bits_minimal.1 4 3 (by decide)).1,
   (calculate_parity_bits_minimal.1 4 3 (by decide)).2 5 (by decide)⟩

/-- C7: `calculate_parity_bits m` raises exactly when no `p ≤ 10` satisfies
`2 ^ p ≥ m + p + 1`; equivalently it raises exactly for `m ≥ 1014` (and
returns normally for every `m ≤ 1013`). -/
theorem calculate_parity_bits_raises_iff (m : ℕ) :
    (calculate_parity_bits m = none ↔ ¬ ∃ p : ℕ, p ≤ 10 ∧ m + p + 1 ≤ 2 ^ p) ∧
    (calculate_parity_bits m = none ↔ 1014 ≤ m) := by
  have hsmall : ∀ q : ℕ, q ≤ 10 → 2 ^ q ≤ 1024 := by
    intro q hq
    calc 2 ^ q ≤ 2 ^ 10 := Nat.pow_le_pow_right (by omega) hq
    _ = 1024 := by norm_num
  rcases le_or_lt m 1013 with hm | hm
  · have hex : ∃ p : ℕ, p ≤ 10 ∧ m + p + 1 ≤ 2 ^ p := ⟨10, le_refl _, by norm_num; omega⟩
    have hP : ∃ q : ℕ, m + q + 1 ≤ 2 ^ q := ⟨10, by norm_num; omega⟩
    have hsome : calculate_parity_bits m =
        some (Nat.find hP) := by
      apply calculate_parity_bits_aux_eq_some m 10 0 (Nat.find hP) (Nat.zero_le _)
      · simpa using Nat.find_min' hP (by norm_num; omega : m + 10 + 1 ≤ 2 ^ 10)
      · intro q _ hq
        exact not_le.mp (Nat.find_min hP hq)
      · exact Nat.find_spec hP
    rw [hsome]
    constructor
    · simp [hex]
    · simp
      omega
  · have hnone : calculate_parity_bits m = none := by
      apply calculate_parity_bits_aux_eq_none m 10 0
      intro q _ hq
      simp only [Nat.zero_add] at hq
      have h1 : 2 ^ q ≤ 1024 := hsmall q hq
      interval_cases q <;> omega
    rw [hnone]
    constructor
    · simp only [true_iff]
      rintro ⟨p, hp1, hp2⟩
      have := hsmall p hp1
      interval_cases p <;> omega
    · simp
      omega

/-- Witness for C7: the theorem applied at `m = 1014`, discharging the
hypothesis of the backward direction by evaluation. -/
theorem calculate_parity_bits_raises_iff_witness :
    calculate_parity_bits 1014 = none :=
  (calculate_parity_bits_raises_iff 1014).2.mpr (by decide)

/-! ## Error detection and correction -/

/-- The slice-splice `code[:n-q] + c + code[n-q+1:]` at an in-range
position `1 ≤ q ≤ n` is `List.set` at left index `n - q`. -/
lemma take_append_drop_eq_set (l : List Bool) (q : ℕ) (v : Bool)
    (h1 : 1 ≤ q) (h2 : q ≤ l.length) :
    l.take (l.length - q) ++ [v] ++ l.drop (l.length - q + 1) =
      l.set (l.length - q) v := by
  rw [List.set_eq_take_append_cons_drop, if_pos (by omega)]
  simp

/-- `getD` through a `set` at in-range indices. -/
lemma getD_set (l : List Bool) (i j : ℕ) (v : Bool) :
    (l.set i v).getD j false =
      if i = j ∧ j < l.length then v else l.getD j false := by
  rw [List.getD_eq_getElem?_getD, List.getD_eq_getElem?_getD, List.getElem?_set]
  by_cases hij : i = j
  · subst hij
    by_cases hl : i < l.length
    · simp [hl]
    · simp [hl, List.getElem?_eq_none (by omega : l.length ≤ i)]
  · simp [hij]

/-- C10: whenever the syndrome of `(code, p)` does not exceed
`len(code)`, `detect_correct_error` returns a string of the same length
that agrees with `code` everywhere except exactly at the syndrome
position (counted from 1 at the right) when the syndrome is nonzero, and
everywhere when it is zero. -/
theorem detect_correct_error_flips_syndrome (code : List Bool) (p : ℕ)
    (h : error_pos code p ≤ code.length) :
    (detect_correct_error code p).length = code.length ∧
    ∀ q, 1 ≤ q → q ≤ code.length →
      pyGet (detect_correct_error code p) q =
        if q = error_pos code p then !(pyGet code q) else pyGet code q := by
  by_cases he : error_pos code p = 0
  · have hid : detect_correct_error code p = code := by
      unfold detect_correct_error
      simp [he]
    refine ⟨by rw [hid], fun q hq1 _ => ?_⟩
    rw [hid, if_neg (by omega)]
  · have he1 : 1 ≤ error_pos code p := by omega
    have hset : detect_correct_error code p =
        code.set (code.length - error_pos code p) (!(pyGet code (error_pos code p))) := by
      unfold detect_correct_error
      simp only [he, ne_eq, not_false_eq_true, if_true]
      exact take_append_drop_eq_set code (error_pos code p) _ he1 h
    refine ⟨by rw [hset, List.length_set], fun q hq1 hq2 => ?_⟩
    rw [hset]
    unfold pyGet
    rw [List.length_set, getD_set]
    by_cases hqe : q = error_pos code p
    · subst hqe
      rw [if_pos ⟨rfl, by omega⟩, if_pos rfl]
    · rw [if_neg ?_, if_neg hqe]
      rintro ⟨h1, _⟩
      exact hqe (by omega)

/-- Witness for C10 at the corrupted demo codeword `1110110` with `p = 3`
(its syndrome is 5 ≤ 7): the corrected word keeps the length and flips
exactly position 5. -/
theorem detect_correct_error_flips_syndrome_witness :
    (detect_correct_error [true, true, true, false, true, true, false] 3).length = 7 ∧
    pyGet (detect_correct_error [true, true, true, false, true, true, false] 3) 5 =
      (if 5 = error_pos [true, true, true, false, true, true, false] 3
       then !(pyGet [true, true, true, false, true, true, false] 5)
       else pyGet [true, true, true, false, true, true, false] 5) := by
  have h := detect_correct_error_flips_syndrome
    [true, true, true, false, true, true, false] 3 (by decide)
  exact ⟨h.1, h.2 5 (by decide) (by decide)⟩

/-! ## Run-length encoding -/

/-- The fuel-based rendering agrees with `Nat.digits`. -/
lemma natToDigitCharsAux_eq_digits :
    ∀ fuel n, n ≤ fuel →
      natToDigitCharsAux fuel n = ((Nat.digits 10 n).map Nat.digitChar).reverse := by
  intro fuel
  induction fuel with
  | zero =>
    intro n h
    obtain rfl : n = 0 := by omega
    simp [natToDigitCharsAux]
  | succ f ih =>
    intro n h
    match n with
    | 0 => simp [natToDigitCharsAux]
    | k + 1 =>
      rw [natToDigitCharsAux]
      have hdiv : (k + 1) / 10 ≤ f := by
        have := Nat.div_lt_self (Nat.succ_pos k) (by omega : 1 < 10)
        omega
      rw [ih _ hdiv, Nat.digits_def' (by omega : 1 < 10) (Nat.succ_pos k)]
      simp

/-- `natToDigitChars` is the `Nat.digits` rendering. -/
lemma natToDigitChars_eq_digits (n : ℕ) :
    natToDigitChars n = ((Nat.digits 10 n).map Nat.digitChar).reverse :=
  natToDigitCharsAux_eq_digits n n (le_refl n)

/-- C9: the worked example from the notebook test cell:
`encode("AABCCCDEEEE") == "A2BC3DE4"` and
`decode("A2BC3DE4") == "AABCCCDEEEE"`. -/
theorem encode_decode_example :
    encode ['A', 'A', 'B', 'C', 'C', 'C', 'D', 'E', 'E', 'E', 'E'] =
      ['A', '2', 'B', 'C', '3', 'D', 'E', '4'] ∧
    decode ['A', '2', 'B', 'C', '3', 'D', 'E', '4'] =
      ['A', 'A', 'B', 'C', 'C', 'C', 'D', 'E', 'E', 'E', 'E'] := by
  constructor <;> decide

/-- `Nat.digitChar` of a value below 10 is a digit character. -/
lemma digitChar_isDigit (d : ℕ) (h : d < 10) : (Nat.digitChar d).isDigit = true := by
  interval_cases d <;> decide

/-- `Nat.digitChar` inverts to its value below 10. -/
lemma digitChar_val (d : ℕ) (h : d < 10) : (Nat.digitChar d).toNat - 48 = d := by
  interval_cases d <;> decide

/-- Every character of a decimal rendering is a digit. -/
lemma natToDigitChars_isDigit (n : ℕ) :
    ∀ c ∈ natToDigitChars n, c.isDigit = true := by
  rw [natToDigitChars_eq_digits]
  intro c hc
  rw [List.mem_reverse, List.mem_map] at hc
  obtain ⟨d, hd, rfl⟩ := hc
  exact digitChar_isDigit d (Nat.digits_lt_base (by omega) hd)

/-- The decimal rendering of a positive number is nonempty. -/
lemma natToDigitChars_ne_nil (n : ℕ) (h : 1 ≤ n) : natToDigitChars n ≠ [] := by
  rw [natToDigitChars_eq_digits]
  simp only [ne_eq, List.reverse_eq_nil_iff, List.map_eq_nil_iff,
    Nat.digits_eq_nil_iff_eq_zero]
  omega

/-- Peeling the last character off a `parseNat`. -/
lemma parseNat_append_singleton (xs : List Char) (c : Char) :
    parseNat (xs ++ [c]) = parseNat xs * 10 + (c.toNat - 48) := by
  unfold parseNat
  rw [List.foldl_append]
  rfl

/-- Parsing the rendering of a little-endian digit list gives its value. -/
lemma parseNat_render_digits :
    ∀ L : List ℕ, (∀ d ∈ L, d < 10) →
      parseNat ((L.map Nat.digitChar).reverse) = Nat.ofDigits 10 L := by
  intro L
  induction L with
  | nil => intro _; simp [parseNat, Nat.ofDigits_nil]
  | cons d L ih =>
    intro h
    simp only [List.map_cons, List.reverse_cons]
    rw [parseNat_append_singleton, ih (fun x hx => h x (List.mem_cons_of_mem _ hx)),
      Nat.ofDigits_cons, digitChar_val d (h d (List.mem_cons_self _ _))]
    ring

/-- `int(str(n)) == n`: parsing inverts the decimal rendering. -/
lemma parseNat_natToDigitChars (n : ℕ) : parseNat (natToDigitChars n) = n := by
  rw [natToDigitChars_eq_digits,
    parseNat_render_digits _ (fun d hd => Nat.digits_lt_base (by omega) hd),
    Nat.ofDigits_digits]

/-- Running the encode loop from a seeded run `(c, k)` and flushing at the
end renders exactly the runs of the remaining text seeded with `(c, k)`. -/
lemma encode_flush :
    ∀ (rest out : List Char) (c : Char) (k : ℕ),
      (rest.foldl encode_step (out, some c, k)).1 ++
        encode_char_segment (rest.foldl encode_step (out, some c, k)).2.1
          (rest.foldl encode_step (out, some c, k)).2.2 =
      out ++ renderRuns (runsAux c k rest) := by
  intro rest
  induction rest with
  | nil =>
    intro out c k
    simp [runsAux, renderRuns]
  | cons d rest ih =>
    intro out c k
    by_cases hdc : d = c
    · subst hdc
      have hstep : encode_step (out, some d, k) d = (out, some d, k + 1) := by
        simp [encode_step]
      simp only [List.foldl_cons, hstep, runsAux, if_pos rfl]
      exact ih out d (k + 1)
    · have hstep : encode_step (out, some c, k) d =
          (out ++ encode_char_segment (some c) k, some d, 1) := by
        simp [encode_step, hdc]
      simp only [List.foldl_cons, hstep, runsAux, if_neg hdc]
      rw [ih (out ++ encode_char_segment (some c) k) d 1]
      simp [renderRuns, List.append_assoc]

/-- `encode` renders the maximal runs of its input. -/
lemma encode_eq_renderRuns (text : List Char) :
    encode text = renderRuns (runs text) := by
  cases text with
  | nil => rfl
  | cons c rest =>
    have hstep : encode_step ([], none, 0) c = ([], some c, 1) := by
      simp [encode_step, encode_char_segment]
    unfold encode
    simp only [List.foldl_cons, hstep, runs]
    exact encode_flush rest [] c 1

/-- Digit characters only accumulate into the decode counter. -/
lemma decode_digits_fold :
    ∀ (ds out : List Char) (lc : Option Char) (cnt : List Char),
      (∀ c ∈ ds, c.isDigit = true) →
      ds.foldl decode_step (out, lc, cnt) = (out, lc, cnt ++ ds) := by
  intro ds
  induction ds with
  | nil => intro out lc cnt _; simp
  | cons d ds ih =>
    intro out lc cnt h
    have hstep : decode_step (out, lc, cnt) d = (out, lc, cnt ++ [d]) := by
      simp [decode_step, h d (List.mem_cons_self _ _)]
    rw [List.foldl_cons, hstep,
      ih out lc (cnt ++ [d]) (fun c hc => h c (List.mem_cons_of_mem _ hc))]
    simp

/-- Running the decode loop over a rendered run list from any state and
flushing at the end flushes the pending segment and then expands the
runs. -/
lemma decode_flush :
    ∀ (rs : List (Char × ℕ)), (∀ s ∈ rs, s.1.isDigit = false ∧ 1 ≤ s.2) →
      ∀ (out : List Char) (lc : Option Char) (cnt : List Char),
        ((renderRuns rs).foldl decode_step (out, lc, cnt)).1 ++
          decode_char_segment ((renderRuns rs).foldl decode_step (out, lc, cnt)).2.1
            ((renderRuns rs).foldl decode_step (out, lc, cnt)).2.2 =
        out ++ decode_char_segment lc cnt ++ unrender rs := by
  intro rs
  induction rs with
  | nil =>
    intro _ out lc cnt
    simp [renderRuns, unrender]
  | cons s rs ih =>
    obtain ⟨c, k⟩ := s
    intro h out lc cnt
    have hc : c.isDigit = false := (h (c, k) (List.mem_cons_self _ _)).1
    have hk : 1 ≤ k := (h (c, k) (List.mem_cons_self _ _)).2
    have hrender : renderRuns ((c, k) :: rs) =
        [c] ++ (if k > 1 then natToDigitChars k else []) ++ renderRuns rs := by
      simp [renderRuns, encode_char_segment]
    have hstep : decode_step (out, lc, cnt) c =
        (out ++ decode_char_segment lc cnt, some c, []) := by
      simp [decode_step, hc]
    have hrep : decode_char_segment (some c)
          (if k > 1 then natToDigitChars k else []) = List.replicate k c := by
      by_cases hk1 : k > 1
      · simp only [if_pos hk1]
        unfold decode_char_segment
        rw [if_pos (natToDigitChars_ne_nil k (by omega)), parseNat_natToDigitChars]
      · have : k = 1 := by omega
        subst this
        simp [decode_char_segment]
    have hacc := decode_digits_fold (if k > 1 then natToDigitChars k else [])
      (out ++ decode_char_segment lc cnt) (some c) []
      (by
        by_cases hk1 : k > 1
        · simpa [hk1] using natToDigitChars_isDigit k
        · simp [hk1])
    rw [hrender]
    rw [List.foldl_append, List.foldl_append, List.foldl_cons, List.foldl_nil, hstep,
      hacc]
    simp only [List.nil_append]
    rw [ih (fun s hs => h s (List.mem_cons_of_mem _ hs))]
    rw [hrep]
    have hunr : unrender ((c, k) :: rs) = List.replicate k c ++ unrender rs := by
      simp [unrender]
    rw [hunr]
    simp [List.append_assoc]

/-- Decoding a rendered run list expands the runs, provided the symbols
are not digits and the counts are positive. -/
lemma decode_renderRuns (rs : List (Char × ℕ))
    (h : ∀ s ∈ rs, s.1.isDigit = false ∧ 1 ≤ s.2) :
    decode (renderRuns rs) = unrender rs := by
  unfold decode
  have := decode_flush rs h [] none []
  simpa [decode_char_segment] using this

/-- Expanding the runs seeded with `(c, k)` yields `k` copies of `c`
followed by the remaining text. -/
lemma unrender_runsAux :
    ∀ (rest : List Char) (c : Char) (k : ℕ),
      unrender (runsAux c k rest) = List.replicate k c ++ rest := by
  intro rest
  induction rest with
  | nil => intro c k; simp [runsAux, unrender]
  | cons d rest ih =>
    intro c k
    by_cases hdc : d = c
    · subst hdc
      rw [runsAux, if_pos rfl, ih]
      rw [List.replicate_succ']
      simp
    · rw [runsAux, if_neg hdc]
      have : unrender ((c, k) :: runsAux d 1 rest) =
          List.replicate k c ++ unrender (runsAux d 1 rest) := by
        simp [unrender]
      rw [this, ih]
      simp

/-- Expanding the maximal runs of a text gives the text back. -/
lemma unrender_runs (text : List Char) : unrender (runs text) = text := by
  cases text with
  | nil => rfl
  | cons c rest =>
    rw [runs, unrender_runsAux]
    simp

/-- Every run produced by `runsAux` has a symbol from the seed or the text
and a positive count. -/
lemma runsAux_mem :
    ∀ (rest : List Char) (c : Char) (k : ℕ), 1 ≤ k →
      ∀ s ∈ runsAux c k rest, (s.1 = c ∨ s.1 ∈ rest) ∧ 1 ≤ s.2 := by
  intro rest
  induction rest with
  | nil =>
    intro c k hk s hs
    rw [runsAux, List.mem_singleton] at hs
    subst hs
    exact ⟨Or.inl rfl, hk⟩
  | cons d rest ih =>
    intro c k hk s hs
    by_cases hdc : d = c
    · subst hdc
      rw [runsAux, if_pos rfl] at hs
      obtain ⟨h1, h2⟩ := ih d (k + 1) (by omega) s hs
      refine ⟨?_, h2⟩
      rcases h1 with h1 | h1
      · exact Or.inl h1
      · exact Or.inr (List.mem_cons_of_mem _ h1)
    · rw [runsAux, if_neg hdc, List.mem_cons] at hs
      rcases hs with hs | hs
      · subst hs
        exact ⟨Or.inl rfl, hk⟩
      · obtain ⟨h1, h2⟩ := ih d 1 (le_refl _) s hs
        refine ⟨?_, h2⟩
        rcases h1 with h1 | h1
        · exact Or.inr (by rw [h1]; exact List.mem_cons_self _ _)
        · exact Or.inr (List.mem_cons_of_mem _ h1)

/-- C3: for every string containing no digit characters (in particular
every printable such string), `decode (encode s) = s`, including strings
with runs of length 10 or more whose counts span multiple digits. -/
theorem decode_encode_roundtrip (s : List Char)
    (h : ∀ c ∈ s, c.isDigit = false) :
    decode (encode s) = s := by
  rw [encode_eq_renderRuns, decode_renderRuns, unrender_runs]
  cases s with
  | nil => simp [runs]
  | cons c rest =>
    intro t ht
    rw [runs] at ht
    obtain ⟨h1, h2⟩ := runsAux_mem rest c 1 (le_refl _) t ht
    refine ⟨?_, h2⟩
    rcases h1 with h1 | h1
    · rw [h1]; exact h c (List.mem_cons_self _ _)
    · exact h t.1 (List.mem_cons_of_mem _ h1)

/-- Witness for C3 on a string with a run of length 12 (two-digit count):
`decode (encode "BAAAAAAAAAAAA") = "BAAAAAAAAAAAA"`. -/
theorem decode_encode_roundtrip_witness :
    decode (encode ['B', 'A', 'A', 'A', 'A', 'A', 'A', 'A', 'A', 'A', 'A', 'A', 'A']) =
      ['B', 'A', 'A', 'A', 'A', 'A', 'A', 'A', 'A', 'A', 'A', 'A', 'A'] :=
  decode_encode_roundtrip
    ['B', 'A', 'A', 'A', 'A', 'A', 'A', 'A', 'A', 'A', 'A', 'A', 'A'] (by decide)

/-- C4 counterexample: the string `"A1"` consists of one segment, a
non-digit symbol followed by digits, so it is a valid encoded string in
the claim's sense, yet `decode "A1" = "A"` and `encode "A" = "A" ≠ "A1"`. -/
theorem encode_decode_claim_counterexample :
    validEncodedSegments ['A', '1'] ∧ encode (decode ['A', '1']) ≠ ['A', '1'] := by
  refine ⟨⟨[('A', ['1'])], by decide, rfl⟩, by decide⟩

/-- Scanning a block of copies of the current symbol only grows the
current count. -/
lemma runsAux_replicate :
    ∀ (t : ℕ) (c : Char) (j : ℕ) (rest : List Char),
      runsAux c j (List.replicate t c ++ rest) = runsAux c (j + t) rest := by
  intro t
  induction t with
  | zero => intro c j rest; simp
  | succ t ih =>
    intro c j rest
    rw [List.replicate_succ, List.cons_append, runsAux, if_pos rfl, ih]
    have : j + 1 + t = j + (t + 1) := by omega
    rw [this]

/-- The runs of an expanded run list are the run list itself, provided all
counts are positive and adjacent runs have distinct symbols. -/
lemma runs_unrender :
    ∀ rs : List (Char × ℕ), (∀ s ∈ rs, 1 ≤ s.2) →
      List.Chain' (fun a b : Char × ℕ => a.1 ≠ b.1) rs →
      runs (unrender rs) = rs := by
  intro rs
  induction rs with
  | nil => intro _ _; rfl
  | cons s rs ih =>
    obtain ⟨c, k⟩ := s
    intro h1 h2
    have hk : 1 ≤ k := h1 (c, k) (List.mem_cons_self _ _)
    obtain ⟨k1, rfl⟩ : ∃ k1, k = k1 + 1 := ⟨k - 1, by omega⟩
    have hexp : unrender ((c, k1 + 1) :: rs) =
        c :: (List.replicate k1 c ++ unrender rs) := by
      simp [unrender, List.replicate_succ]
    rw [hexp, runs, runsAux_replicate]
    have h1r : ∀ s ∈ rs, 1 ≤ s.2 := fun s hs => h1 s (List.mem_cons_of_mem _ hs)
    cases rs with
    | nil =>
      simp [unrender, runsAux, Nat.add_comm]
    | cons s2 rs2 =>
      obtain ⟨d, k2⟩ := s2
      have hne : c ≠ d := (List.chain'_cons.mp h2).1
      have h2r : List.Chain' (fun a b : Char × ℕ => a.1 ≠ b.1) ((d, k2) :: rs2) :=
        (List.chain'_cons.mp h2).2
      have hk2 : 1 ≤ k2 := h1r (d, k2) (List.mem_cons_self _ _)
      obtain ⟨k3, rfl⟩ : ∃ k3, k2 = k3 + 1 := ⟨k2 - 1, by omega⟩
      have hexp2 : unrender ((d, k3 + 1) :: rs2) =
          d :: (List.replicate k3 d ++ unrender rs2) := by
        simp [unrender, List.replicate_succ]
      have hihr := ih h1r h2r
      rw [hexp2] at hihr ⊢
      rw [runs] at hihr
      rw [runsAux, if_neg (fun hdc => hne hdc.symm), hihr]
      norm_num
      omega

/-- C4 (amended): for every encoded string that is the canonical rendering
of a run list, with non-digit symbols, positive counts written in decimal
only when at least 2, and adjacent symbols distinct, `encode ∘ decode` is
the identity. -/
theorem encode_decode_canonical (rs : List (Char × ℕ))
    (h1 : ∀ s ∈ rs, s.1.isDigit = false ∧ 1 ≤ s.2)
    (h2 : List.Chain' (fun a b : Char × ℕ => a.1 ≠ b.1) rs) :
    encode (decode (renderRuns rs)) = renderRuns rs := by
  rw [decode_renderRuns rs h1, encode_eq_renderRuns,
    runs_unrender rs (fun s hs => (h1 s hs).2) h2]

/-- Witness for C4 (amended) at the rendering `"A2BC3"` of the run list
`[(A, 2), (B, 1), (C, 3)]`. -/
theorem encode_decode_canonical_witness :
    encode (decode (renderRuns [('A', 2), ('B', 1), ('C', 3)])) =
      renderRuns [('A', 2), ('B', 1), ('C', 3)] :=
  encode_decode_canonical [('A', 2), ('B', 1), ('C', 3)] (by decide)
    (List.chain'_cons.mpr ⟨by decide, List.chain'_cons.mpr ⟨by decide,
      List.chain'_singleton _⟩⟩)

/-! ## Powers of two and position bookkeeping -/

/-- `isPow2` decides being a power of two. -/
lemma isPow2_iff (q : ℕ) : isPow2 q = true ↔ ∃ l, 2 ^ l = q := by
  unfold isPow2
  rw [List.any_eq_true]
  constructor
  · rintro ⟨l, _, hl⟩
    exact ⟨l, by simpa using hl⟩
  · rintro ⟨l, hl⟩
    refine ⟨l, List.mem_range.mpr ?_, by simpa using hl⟩
    have := Nat.lt_two_pow l
    omega

/-- There are at most `t` powers of two in `[1, t]`. -/
lemma numPows_le (t : ℕ) : numPows t ≤ t := by
  induction t with
  | zero => simp [numPows]
  | succ t ih =>
    rw [numPows]
    by_cases h : isPow2 (t + 1) = true
    · rw [if_pos h]; omega
    · rw [if_neg h]; omega

/-- `2 ^ numPows t` is the least power of two exceeding `t`. -/
lemma numPows_invariant (t : ℕ) :
    t < 2 ^ numPows t ∧ (numPows t = 0 ∨ 2 ^ (numPows t - 1) ≤ t) := by
  induction t with
  | zero => exact ⟨by simp [numPows], Or.inl rfl⟩
  | succ t ih =>
    by_cases hp : isPow2 (t + 1) = true
    · obtain ⟨l, hl⟩ := (isPow2_iff (t + 1)).mp hp
      have hnum : numPows t = l := by
        have h1 : l ≤ numPows t := by
          rw [← Nat.pow_le_pow_iff_right (by omega : 1 < 2), hl]
          omega
        rcases ih.2 with h0 | h2
        · omega
        · have : numPows t - 1 < l := by
            rw [← Nat.pow_lt_pow_iff_right (by omega : 1 < 2), hl]
            omega
          omega
      have hsucc : numPows (t + 1) = l + 1 := by
        rw [numPows, if_pos hp, hnum]
      rw [hsucc]
      constructor
      · calc t + 1 = 2 ^ l := hl.symm
        _ < 2 ^ (l + 1) := by rw [Nat.pow_lt_pow_iff_right (by omega : 1 < 2)]; omega
      · right
        simp
        omega
    · have hsucc : numPows (t + 1) = numPows t := by
        rw [numPows, if_neg hp]
        omega
      rw [hsucc]
      constructor
      · rcases Nat.lt_or_ge (t + 1) (2 ^ numPows t) with h | h
        · exact h
        · exfalso
          have : t + 1 = 2 ^ numPows t := by omega
          exact hp ((isPow2_iff (t + 1)).mpr ⟨numPows t, this.symm⟩)
      · rcases ih.2 with h0 | h2
        · exact Or.inl h0
        · exact Or.inr (by omega)

/-- If `t + 1` is the power `2 ^ l` then exactly `l` powers lie in
`[1, t]`. -/
lemma numPows_of_pow (t l : ℕ) (h : 2 ^ l = t + 1) : numPows t = l := by
  obtain ⟨h1, h2⟩ := numPows_invariant t
  have ha : l ≤ numPows t := by
    rw [← Nat.pow_le_pow_iff_right (by omega : 1 < 2), h]
    omega
  rcases h2 with h0 | h2
  · omega
  · have : numPows t - 1 < l := by
      rw [← Nat.pow_lt_pow_iff_right (by omega : 1 < 2), h]
      omega
    omega

/-- The loop test `i == 2 ** j` of `position_parity_bits`, with `j` the
number of powers already seen, recognises exactly the powers of two. -/
lemma pow_numPows_succ_iff (t : ℕ) :
    t + 1 = 2 ^ numPows t ↔ isPow2 (t + 1) = true := by
  constructor
  · intro h
    exact (isPow2_iff (t + 1)).mpr ⟨numPows t, h.symm⟩
  · intro h
    obtain ⟨l, hl⟩ := (isPow2_iff (t + 1)).mp h
    rw [numPows_of_pow t l hl]
    exact hl.symm

/-- `numPows` is determined by bracketing between consecutive powers. -/
lemma numPows_eq (n p : ℕ) (hlt : n < 2 ^ p)
    (hge : p = 0 ∨ 2 ^ (p - 1) ≤ n) : numPows n = p := by
  obtain ⟨h1, h2⟩ := numPows_invariant n
  rcases hge with rfl | hge
  · have : n = 0 := by simpa using hlt
    subst this
    rfl
  · have ha : numPows n ≤ p := by
      by_contra hc
      have hp1 : p ≤ numPows n - 1 := by omega
      have : 2 ^ p ≤ 2 ^ (numPows n - 1) :=
        (Nat.pow_le_pow_iff_right (by omega : 1 < 2)).mpr hp1
      rcases h2 with h0 | h2 <;> omega
    have hb : p ≤ numPows n := by
      by_contra hc
      have : 2 ^ numPows n ≤ 2 ^ (p - 1) :=
        (Nat.pow_le_pow_iff_right (by omega : 1 < 2)).mpr (by omega)
      omega
    omega

/-- The source's membership test `j & 2**i == 2**i` is `Nat.testBit`. -/
lemma and_pow_eq_iff (j i : ℕ) : j &&& 2 ^ i = 2 ^ i ↔ j.testBit i = true := by
  rw [Nat.and_two_pow]
  cases h : j.testBit i
  · simp
    positivity
  · simp

/-- `decide` form of `and_pow_eq_iff`, for rewriting inside `filter`. -/
lemma decide_and_pow (i j : ℕ) :
    decide (j &&& 2 ^ i = 2 ^ i) = j.testBit i := by
  cases h : j.testBit i
  · simpa [h] using (and_pow_eq_iff j i)
  · simpa [h] using (and_pow_eq_iff j i).mpr h

/-! ## XOR sums -/

/-- `xorAll` splits over append. -/
lemma xorAll_append (l1 l2 : List Bool) :
    xorAll (l1 ++ l2) = xor (xorAll l1) (xorAll l2) := by
  induction l1 with
  | nil => simp [xorAll]
  | cons b l1 ih =>
    simp only [xorAll, List.cons_append, List.foldr_cons] at ih ⊢
    rw [ih, Bool.xor_assoc]

/-- `xorAll` of a cons. -/
lemma xorAll_cons (b : Bool) (l : List Bool) :
    xorAll (b :: l) = xor b (xorAll l) := rfl

/-- Folds of pointwise-equal functions agree. -/
lemma foldl_congr_fun {α : Type} {β : Type} (F G : α → β → α)
    (h : ∀ a x, F a x = G a x) :
    ∀ (l : List β) (b : α), l.foldl F b = l.foldl G b := by
  intro l
  induction l with
  | nil => intro b; rfl
  | cons x l ih =>
    intro b
    rw [List.foldl_cons, List.foldl_cons, h b x, ih]

/-- A guarded XOR-accumulating fold is the XOR over the filtered list. -/
lemma foldl_xor_filter (P : ℕ → Bool) (g : ℕ → Bool) :
    ∀ (l : List ℕ) (b : Bool),
      l.foldl (fun val j => if P j then xor val (g j) else val) b =
        xor b (xorAll ((l.filter P).map g)) := by
  intro l
  induction l with
  | nil => intro b; simp [xorAll]
  | cons j l ih =>
    intro b
    rw [List.foldl_cons, List.filter_cons]
    cases hj : P j
    · rw [if_neg (by simp [hj]), if_neg (by simp [hj]), ih b]
    · rw [if_pos (by simp [hj]), if_pos (by simp [hj]), ih (xor b (g j)),
        List.map_cons, xorAll_cons, Bool.xor_assoc]

/-- `parity_val` is the XOR over the positions covered by bit `i`. -/
lemma parity_val_eq_psum (code : List Bool) (i : ℕ) :
    parity_val code i = psum code.length (pyGet code) i := by
  unfold parity_val psum
  rw [foldl_congr_fun
    (fun val j => if j &&& 2 ^ i = 2 ^ i then xor val (pyGet code j) else val)
    (fun val j => if j.testBit i then xor val (pyGet code j) else val)
    (fun a x => if_congr (and_pow_eq_iff x i) rfl rfl)]
  rw [foldl_xor_filter (fun j => j.testBit i) (pyGet code), Bool.false_xor]

/-- `psum` only looks at covered in-range positions. -/
lemma psum_congr (n : ℕ) (f g : ℕ → Bool) (i : ℕ)
    (h : ∀ q, 1 ≤ q → q ≤ n → q.testBit i = true → f q = g q) :
    psum n f i = psum n g i := by
  unfold psum
  congr 1
  apply List.map_congr_left
  intro q hq
  rw [List.mem_filter, List.mem_range'_1] at hq
  exact h q hq.1.1 (by omega) hq.2

/-- Splitting a `psum` at an in-range position `q`. -/
lemma psum_split (n : ℕ) (f : ℕ → Bool) (q i : ℕ) (h1 : 1 ≤ q) (h2 : q ≤ n) :
    psum n f i =
      xor (xorAll (((List.range' 1 (q - 1)).filter (fun j => j.testBit i)).map f))
        (if q.testBit i = true
         then xor (f q)
           (xorAll (((List.range' (q + 1) (n - q)).filter (fun j => j.testBit i)).map f))
         else xorAll (((List.range' (q + 1) (n - q)).filter (fun j => j.testBit i)).map f)) := by
  have hsplit : List.range' 1 n =
      List.range' 1 (q - 1) ++ q :: List.range' (q + 1) (n - q) := by
    have h3 : List.range' 1 (q - 1) ++ List.range' (1 + 1 * (q - 1)) (n - q + 1) =
        List.range' 1 (n - q + 1 + (q - 1)) := List.range'_append 1 (q - 1) (n - q + 1) 1
    have h4 : 1 + 1 * (q - 1) = q := by omega
    have h5 : n - q + 1 + (q - 1) = n := by omega
    rw [h4, h5] at h3
    rw [← h3, List.range'_succ]
  unfold psum
  rw [hsplit]
  simp only [List.filter_append, List.filter_cons, List.map_append, xorAll_append]
  cases htb : q.testBit i
  · rw [if_neg (fun hc => Bool.noConfusion hc), if_neg (fun hc => Bool.noConfusion hc)]
  · rw [if_pos rfl, if_pos rfl, List.map_cons, xorAll_cons]

/-- Updating one in-range position changes a `psum` by the XOR of the old
and new bit, when the position is covered, and not at all otherwise. -/
lemma psum_updf (n : ℕ) (f : ℕ → Bool) (q : ℕ) (v : Bool) (i : ℕ)
    (h1 : 1 ≤ q) (h2 : q ≤ n) :
    psum n (updf f q v) i =
      if q.testBit i = true then xor (psum n f i) (xor (f q) v)
      else psum n f i := by
  have hupd_side1 : ((List.range' 1 (q - 1)).filter (fun j => j.testBit i)).map
      (updf f q v) = ((List.range' 1 (q - 1)).filter (fun j => j.testBit i)).map f := by
    apply List.map_congr_left
    intro x hx
    have := List.mem_range'_1.mp (List.mem_filter.mp hx).1
    unfold updf
    rw [if_neg (by omega)]
  have hupd_side2 : ((List.range' (q + 1) (n - q)).filter (fun j => j.testBit i)).map
      (updf f q v) = ((List.range' (q + 1) (n - q)).filter (fun j => j.testBit i)).map f := by
    apply List.map_congr_left
    intro x hx
    have := List.mem_range'_1.mp (List.mem_filter.mp hx).1
    unfold updf
    rw [if_neg (by omega)]
  have hq_upd : updf f q v q = v := by unfold updf; rw [if_pos rfl]
  rw [psum_split n (updf f q v) q i h1 h2, psum_split n f q i h1 h2,
    hupd_side1, hupd_side2, hq_upd]
  cases htb : q.testBit i
  · rw [if_neg (fun hc => Bool.noConfusion hc), if_neg (fun hc => Bool.noConfusion hc),
      if_neg (fun hc => Bool.noConfusion hc)]
  · rw [if_pos rfl, if_pos rfl, if_pos rfl]
    have hbool : ∀ A D b w : Bool,
        xor A (xor w D) = xor (xor A (xor b D)) (xor b w) := by decide
    exact hbool _ _ _ _

/-! ## Codewords in right-position form -/

lemma length_ofRight (n : ℕ) (f : ℕ → Bool) : (ofRight n f).length = n := by
  simp [ofRight]

lemma getElem_ofRight (n : ℕ) (f : ℕ → Bool) (t : ℕ)
    (h : t < (ofRight n f).length) : (ofRight n f)[t] = f (n - t) := by
  simp [ofRight]

lemma getD_ofRight (n : ℕ) (f : ℕ → Bool) (t : ℕ) (h : t < n) :
    (ofRight n f).getD t false = f (n - t) := by
  rw [List.getD_eq_getElem _ _ (by rw [length_ofRight]; exact h)]
  exact getElem_ofRight n f t _

lemma pyGet_ofRight (n : ℕ) (f : ℕ → Bool) (q : ℕ) (h1 : 1 ≤ q) (h2 : q ≤ n) :
    pyGet (ofRight n f) q = f q := by
  unfold pyGet
  rw [length_ofRight, getD_ofRight n f _ (by omega)]
  congr 1
  omega

lemma ofRight_set (n : ℕ) (f : ℕ → Bool) (q : ℕ) (v : Bool)
    (h1 : 1 ≤ q) (h2 : q ≤ n) :
    (ofRight n f).set (n - q) v = ofRight n (updf f q v) := by
  apply List.ext_getElem
  · rw [List.length_set, length_ofRight, length_ofRight]
  · intro t ht1 ht2
    have htn : t < n := by rw [length_ofRight] at ht2; exact ht2
    rw [List.getElem_set, getElem_ofRight n (updf f q v) t ht2]
    unfold updf
    by_cases hqt : n - q = t
    · have h3 : n - t = q := by omega
      rw [if_pos hqt, if_pos h3]
    · have h3 : ¬(n - t = q) := by omega
      rw [if_neg hqt, if_neg h3, getElem_ofRight]

lemma ofRight_congr (n : ℕ) (f g : ℕ → Bool)
    (h : ∀ q, 1 ≤ q → q ≤ n → f q = g q) : ofRight n f = ofRight n g := by
  unfold ofRight
  apply List.map_congr_left
  intro t ht
  rw [List.mem_range] at ht
  exact h (n - t) (by omega) (by omega)

lemma ofRight_pyGet_self (l : List Bool) : ofRight l.length (pyGet l) = l := by
  apply List.ext_getElem
  · rw [length_ofRight]
  · intro t ht1 ht2
    rw [getElem_ofRight]
    unfold pyGet
    have : l.length - (l.length - t) = t := by omega
    rw [this, List.getD_eq_getElem _ _ ht2]

lemma parity_val_ofRight (n : ℕ) (f : ℕ → Bool) (i : ℕ) :
    parity_val (ofRight n f) i = psum n f i := by
  rw [parity_val_eq_psum, length_ofRight]
  exact psum_congr n _ f i (fun q hq1 hq2 _ => pyGet_ofRight n f q hq1 hq2)

/-- The inner parity loop over a fixed bound equal to the code's length is
`parity_val`. -/
lemma parity_val_foldl_eq (c : List Bool) (n i : ℕ) (h : c.length = n) :
    (List.range' 1 n).foldl
      (fun val j => if j &&& 2 ^ i = 2 ^ i then xor val (c.getD (n - j) false) else val)
      false = parity_val c i := by
  subst h
  rfl

/-- Reversing a left-to-right built list indexed by right positions. -/
lemma map_range'_reverse (n : ℕ) (g : ℕ → Bool) :
    ((List.range' 1 n).map g).reverse = ofRight n g := by
  rw [← List.map_reverse, List.reverse_range']
  unfold ofRight
  rw [List.map_map]
  apply List.map_congr_left
  intro t ht
  rw [List.mem_range] at ht
  simp only [Function.comp_apply]
  congr 1
  omega

/-! ## The positioned codeword -/

/-- The loop of `position_parity_bits` after `t` iterations: `j` counts the
powers of two seen so far, `k` the data bits consumed plus one, and the
accumulated string holds, for each position `i ≤ t`, a placeholder at
powers of two and the next data bit elsewhere. -/
lemma position_parity_bits_foldl (data : List Bool) :
    ∀ t, (List.range' 1 t).foldl
        (fun s i =>
          if i = 2 ^ s.1 then (s.1 + 1, s.2.1, s.2.2 ++ [false])
          else (s.1, s.2.1 + 1, s.2.2 ++ [pyGet data s.2.1]))
        ((0, 1, []) : ℕ × ℕ × List Bool) =
      (numPows t, t + 1 - numPows t, (List.range' 1 t).map (entryOf data)) := by
  intro t
  induction t with
  | zero => rfl
  | succ t ih =>
    have hcat : List.range' 1 (t + 1) = List.range' 1 t ++ [t + 1] := by
      rw [List.range'_concat]
      congr 1
      simp [Nat.add_comm]
    rw [hcat, List.foldl_append, ih, List.foldl_cons, List.foldl_nil, List.map_append]
    have hnple := numPows_le t
    by_cases hp : isPow2 (t + 1) = true
    · have hcond : t + 1 = 2 ^ numPows t := (pow_numPows_succ_iff t).mpr hp
      have h1 : numPows (t + 1) = numPows t + 1 := by
        rw [numPows, if_pos hp]
      have h2 : entryOf data (t + 1) = false := by
        unfold entryOf
        rw [if_pos hp]
      rw [if_pos hcond]
      simp only [List.map_cons, List.map_nil, h1, h2, Prod.mk.injEq]
      refine ⟨by trivial, by omega, by trivial⟩
    · have hcond : ¬(t + 1 = 2 ^ numPows t) :=
        fun hc => hp ((pow_numPows_succ_iff t).mp hc)
      have h1 : numPows (t + 1) = numPows t := by
        rw [numPows, if_neg hp]
        omega
      have h2 : entryOf data (t + 1) = pyGet data (t + 1 - numPows t) := by
        unfold entryOf
        rw [if_neg hp, h1]
      rw [if_neg hcond]
      simp only [List.map_cons, List.map_nil, h1, h2, Prod.mk.injEq]
      refine ⟨by trivial, by omega, by trivial⟩

/-- `position_parity_bits` in right-position form: placeholders at the
powers of two, the data bits in order elsewhere. -/
lemma position_parity_bits_eq (data : List Bool) (p : ℕ) :
    position_parity_bits data p = ofRight (data.length + p) (entryOf data) := by
  have hdef : position_parity_bits data p =
      ((List.range' 1 (data.length + p)).foldl
        (fun s i =>
          if i = 2 ^ s.1 then (s.1 + 1, s.2.1, s.2.2 ++ [false])
          else (s.1, s.2.1 + 1, s.2.2 ++ [pyGet data s.2.1]))
        ((0, 1, []) : ℕ × ℕ × List Bool)).2.2.reverse := rfl
  rw [hdef, position_parity_bits_foldl data (data.length + p)]
  exact map_range'_reverse (data.length + p) (entryOf data)

/-! ## The computed parity values -/

/-- One step of `calculate_parity_values` on a right-position codeword sets
position `2 ^ i` to the parity of the covered positions. -/
lemma cpvStep_ofRight (n : ℕ) (g : ℕ → Bool) (i : ℕ) (hi : 2 ^ i ≤ n) :
    cpvStep n (ofRight n g) i = ofRight n (updf g (2 ^ i) (psum n g i)) := by
  have hlen := length_ofRight n g
  have h1 : (1 : ℕ) ≤ 2 ^ i := Nat.one_le_two_pow
  simp only [cpvStep]
  rw [parity_val_foldl_eq (ofRight n g) n i hlen, parity_val_ofRight]
  have hsub : n - 2 ^ i = (ofRight n g).length - 2 ^ i := by rw [hlen]
  rw [hsub, take_append_drop_eq_set (ofRight n g) (2 ^ i) _ h1 (by omega), hlen]
  exact ofRight_set n g (2 ^ i) _ h1 hi

/-- The parity-filling fold: the result is the positioned codeword with
each power-of-two position `2 ^ l` holding the parity of the positions it
covers, computed over the original codeword. -/
lemma calculate_parity_values_fold (n : ℕ) (f : ℕ → Bool) :
    ∀ p, (∀ i, i < p → 2 ^ i ≤ n) →
      ∃ g, (List.range p).foldl (cpvStep n) (ofRight n f) = ofRight n g ∧
        (∀ q, (∀ l, l < p → q ≠ 2 ^ l) → g q = f q) ∧
        (∀ l, l < p → g (2 ^ l) = psum n f l) := by
  intro p
  induction p with
  | zero =>
    intro _
    exact ⟨f, rfl, fun q _ => rfl, fun l hl => absurd hl (Nat.not_lt_zero l)⟩
  | succ p ih =>
    intro hn
    obtain ⟨g, hg, hoff, hpow⟩ := ih (fun i hi => hn i (by omega))
    have hpsum : psum n g p = psum n f p := by
      apply psum_congr
      intro q h1 h2 htb
      apply hoff
      intro l hl hql
      rw [hql, Nat.testBit_two_pow] at htb
      have : l = p := by simpa using htb
      omega
    refine ⟨updf g (2 ^ p) (psum n f p), ?_, ?_, ?_⟩
    · rw [List.range_succ, List.foldl_append, hg, List.foldl_cons, List.foldl_nil,
        cpvStep_ofRight n g p (hn p (by omega)), hpsum]
    · intro q hq
      unfold updf
      rw [if_neg (hq p (by omega))]
      exact hoff q (fun l hl => hq l (by omega))
    · intro l hl
      rcases Nat.lt_or_ge l p with hlp | hlp
      · unfold updf
        rw [if_neg (fun hc => by
          have := Nat.pow_right_injective (le_refl 2) hc
          omega)]
        exact hpow l hlp
      · have : l = p := by omega
        subst this
        unfold updf
        rw [if_pos rfl]

/-- `calculate_parity_values` is the parity-filling fold. -/
lemma calculate_parity_values_eq_fold (code : List Bool) (p : ℕ) :
    calculate_parity_values code p =
      (List.range p).foldl (cpvStep code.length) code := rfl

/-! ## The syndrome -/

/-- Powers of two are powers of two. -/
lemma isPow2_pow (l : ℕ) : isPow2 (2 ^ l) = true :=
  (isPow2_iff _).mpr ⟨l, rfl⟩

/-- Over a completed codeword (placeholders filled with the parities of the
positions they cover) every recomputed parity is zero. -/
lemma syndrome_zero (n : ℕ) (f : ℕ → Bool) (p : ℕ) (g : ℕ → Bool)
    (hn : ∀ i, i < p → 2 ^ i ≤ n) (hlt : n < 2 ^ p)
    (hentry : ∀ l, l < p → f (2 ^ l) = false)
    (hoff : ∀ q, (∀ l, l < p → q ≠ 2 ^ l) → g q = f q)
    (hpow : ∀ l, l < p → g (2 ^ l) = psum n f l) :
    ∀ i, i < p → psum n g i = false := by
  intro i hi
  have hcong : psum n g i = psum n (updf f (2 ^ i) (psum n f i)) i := by
    apply psum_congr
    intro q h1 h2 htb
    by_cases hql : ∃ l, l < p ∧ q = 2 ^ l
    · obtain ⟨l, hl, rfl⟩ := hql
      rw [Nat.testBit_two_pow] at htb
      have hli : l = i := by simpa using htb
      subst hli
      rw [hpow l hl]
      unfold updf
      rw [if_pos rfl]
    · push_neg at hql
      rw [hoff q hql]
      unfold updf
      rw [if_neg (hql i hi)]
  rw [hcong, psum_updf n f (2 ^ i) _ i Nat.one_le_two_pow (hn i hi),
    if_pos (by rw [Nat.testBit_two_pow]; simp), hentry i hi]
  cases psum n f i <;> rfl

/-- The syndrome accumulator sums the bits of `e` when the parities spell
out `e` in binary. -/
lemma foldl_syndrome_mod (e : ℕ) :
    ∀ p (a : ℕ), (List.range p).foldl
        (fun acc i => acc + (cond (e.testBit i) 1 0) * 2 ^ i) a = a + e % 2 ^ p := by
  intro p
  induction p with
  | zero => intro a; simp [Nat.mod_one]
  | succ p ih =>
    intro a
    rw [List.range_succ, List.foldl_append, ih a, List.foldl_cons, List.foldl_nil]
    have hcond : (cond (e.testBit p) 1 0 : ℕ) = e / 2 ^ p % 2 := by
      rw [Nat.testBit_to_div_mod]
      rcases Nat.mod_two_eq_zero_or_one (e / 2 ^ p) with h | h <;> simp [h]
    have hmod : e % 2 ^ (p + 1) = e % 2 ^ p + 2 ^ p * (e / 2 ^ p % 2) := by
      rw [pow_succ]
      exact Nat.mod_mul
    rw [hcond, hmod]
    ring

/-- Folds of functions that agree on the list's members agree. -/
lemma foldl_congr_mem {α β : Type} :
    ∀ (l : List β) (F G : α → β → α),
      (∀ a x, x ∈ l → F a x = G a x) → ∀ b, l.foldl F b = l.foldl G b := by
  intro l
  induction l with
  | nil => intro F G _ b; rfl
  | cons x l ih =>
    intro F G h b
    rw [List.foldl_cons, List.foldl_cons, h b x (List.mem_cons_self _ _)]
    exact ih F G (fun a y hy => h a y (List.mem_cons_of_mem _ hy)) _

/-- If the recomputed parities spell out `e < 2 ^ p` in binary, the
syndrome is `e`. -/
lemma error_pos_eq_of_testBit (code : List Bool) (p e : ℕ)
    (h : ∀ i, i < p → parity_val code i = e.testBit i) (he : e < 2 ^ p) :
    error_pos code p = e := by
  unfold error_pos
  rw [foldl_congr_mem (List.range p) _
    (fun acc i => acc + (cond (e.testBit i) 1 0) * 2 ^ i)
    (fun a i hi => by rw [h i (List.mem_range.mp hi)]) 0]
  rw [foldl_syndrome_mod e p 0, Nat.zero_add, Nat.mod_eq_of_lt he]

/-- With a zero syndrome, `detect_correct_error` returns its input. -/
lemma detect_correct_error_of_zero (code : List Bool) (p : ℕ)
    (h : error_pos code p = 0) : detect_correct_error code p = code := by
  unfold detect_correct_error
  simp [h]

/-- With an in-range nonzero syndrome, `detect_correct_error` flips the bit
at the syndrome position from the right. -/
lemma detect_correct_error_of_pos (code : List Bool) (p : ℕ)
    (h1 : 1 ≤ error_pos code p) (h2 : error_pos code p ≤ code.length) :
    detect_correct_error code p =
      code.set (code.length - error_pos code p)
        (!(pyGet code (error_pos code p))) := by
  have hdef : detect_correct_error code p =
      if error_pos code p ≠ 0
      then code.take (code.length - error_pos code p) ++
        [!(code.getD (code.length - error_pos code p) false)] ++
        code.drop (code.length - error_pos code p + 1)
      else code := rfl
  rw [hdef, if_pos (by omega : error_pos code p ≠ 0)]
  exact take_append_drop_eq_set code (error_pos code p)
    (!(pyGet code (error_pos code p))) h1 h2

/-- `add_noise` on a right-position codeword flips the bit at right
position `n - pos`. -/
lemma add_noise_ofRight (n : ℕ) (g : ℕ → Bool) (pos : ℕ) (h : pos < n) :
    add_noise (ofRight n g) pos =
      ofRight n (updf g (n - pos) (!(g (n - pos)))) := by
  unfold add_noise
  have hlen := length_ofRight n g
  have hset : (ofRight n g).take pos ++ [!(ofRight n g).getD pos false] ++
      (ofRight n g).drop (pos + 1) =
      (ofRight n g).set pos (!(ofRight n g).getD pos false) := by
    rw [List.set_eq_take_append_cons_drop, if_pos (by omega)]
    simp
  rw [hset, getD_ofRight n g pos h]
  have hpos : pos = n - (n - pos) := by omega
  nth_rewrite 1 [hpos]
  exact ofRight_set n g (n - pos) _ (by omega) (by omega)

/-! ## Removing the parity bits -/

/-- The accumulate-if-kept fold is a filter-and-map. -/
lemma foldl_filter_append (P : ℕ → Prop) [DecidablePred P] (g : ℕ → Bool) :
    ∀ (l : List ℕ) (acc : List Bool),
      l.foldl (fun dec i => if P i then dec else dec ++ [g i]) acc =
        acc ++ (l.filter (fun i => decide (¬ P i))).map g := by
  intro l
  induction l with
  | nil => intro acc; simp
  | cons x l ih =>
    intro acc
    rw [List.foldl_cons, List.filter_cons]
    by_cases hx : P x
    · rw [if_pos hx, if_neg (by simp [hx]), ih]
    · rw [if_neg hx, if_pos (by simp [hx]), ih, List.map_cons]
      simp [List.append_assoc]

/-- Membership in the parity-position list of `remove_parity_bits`. -/
lemma mem_parity_positions (n p i : ℕ) (hp : ∀ l, l < p → 2 ^ l ≤ n)
    (hn : n < 2 ^ p) (hi : i < n) :
    i ∈ ((List.range p).map (fun l => 2 ^ l)).map (fun x => n - x) ↔
      isPow2 (n - i) = true := by
  rw [List.map_map, List.mem_map]
  constructor
  · rintro ⟨l, hl, hli⟩
    rw [List.mem_range] at hl
    simp only [Function.comp_apply] at hli
    have h2l : 2 ^ l ≤ n := hp l hl
    have hni : n - i = 2 ^ l := by omega
    rw [hni]
    exact isPow2_pow l
  · intro hpow
    obtain ⟨l, hl⟩ := (isPow2_iff _).mp hpow
    refine ⟨l, List.mem_range.mpr ?_, ?_⟩
    · have : 2 ^ l < 2 ^ p := by omega
      exact (Nat.pow_lt_pow_iff_right (by omega)).mp this
    · simp only [Function.comp_apply]
      omega

/-- Dropping the power-of-two positions from the left-to-right traversal
enumerates `nonpows` from the right. -/
lemma filter_nonpow_map (f : ℕ → Bool) :
    ∀ n, ((List.range n).filter (fun i => !(isPow2 (n - i)))).map
        (fun i => f (n - i)) = (nonpows n).map f := by
  intro n
  induction n with
  | zero => rfl
  | succ n ih =>
    have hsucc : ∀ x : ℕ,
        ((fun i => !(isPow2 (n + 1 - i))) ∘ Nat.succ) x =
          (fun i => !(isPow2 (n - i))) x := by
      intro x
      simp only [Function.comp_apply, Nat.succ_sub_succ]
    rw [List.range_succ_eq_map, List.filter_cons, List.filter_map,
      List.filter_congr (fun x _ => hsucc x)]
    have hcomp : ∀ x ∈ (List.range n).filter (fun i => !(isPow2 (n - i))),
        ((fun i => f (n + 1 - i)) ∘ Nat.succ) x = (fun i => f (n - i)) x := by
      intro x _
      simp only [Function.comp_apply, Nat.succ_sub_succ]
    by_cases hp : isPow2 (n + 1) = true
    · rw [if_neg (by simp [hp]), List.map_map, List.map_congr_left hcomp, ih,
        nonpows, if_pos hp]
    · rw [if_pos (by simp [hp]), List.map_cons, List.map_map,
        List.map_congr_left hcomp, ih, nonpows, if_neg hp, List.map_cons]
      norm_num

/-- Every entry of `nonpows n` is an in-range non-power. -/
lemma nonpows_mem :
    ∀ n q, q ∈ nonpows n → 1 ≤ q ∧ q ≤ n ∧ isPow2 q = false := by
  intro n
  induction n with
  | zero => intro q hq; simp [nonpows] at hq
  | succ n ih =>
    intro q hq
    rw [nonpows] at hq
    by_cases hp : isPow2 (n + 1) = true
    · rw [if_pos hp] at hq
      obtain ⟨h1, h2, h3⟩ := ih q hq
      exact ⟨h1, by omega, h3⟩
    · rw [if_neg hp] at hq
      rcases List.mem_cons.mp hq with rfl | hq
      · exact ⟨by omega, le_refl _, by simpa using hp⟩
      · obtain ⟨h1, h2, h3⟩ := ih q hq
        exact ⟨h1, by omega, h3⟩

/-- Skipping the powers of two renumbers the remaining positions downward
without gaps: the data indices `q - numPows q` run down from
`n - numPows n` to 1. -/
lemma nonpows_map_sub :
    ∀ n, (nonpows n).map (fun q => q - numPows q) =
      (List.range' 1 (n - numPows n)).reverse := by
  intro n
  induction n with
  | zero => rfl
  | succ n ih =>
    rw [nonpows]
    by_cases hp : isPow2 (n + 1) = true
    · have h1 : numPows (n + 1) = numPows n + 1 := by rw [numPows, if_pos hp]
      have h2 : n + 1 - numPows (n + 1) = n - numPows n := by rw [h1]; omega
      rw [if_pos hp, h2]
      exact ih
    · have h1 : numPows (n + 1) = numPows n := by rw [numPows, if_neg hp]; omega
      have hle := numPows_le n
      have h2 : n + 1 - numPows (n + 1) = (n - numPows n) + 1 := by rw [h1]; omega
      rw [if_neg hp, List.map_cons, h2, List.range'_concat, List.reverse_append]
      simp only [List.reverse_cons, List.reverse_nil, List.nil_append,
        List.singleton_append]
      rw [ih]
      congr 1
      omega

/-- `remove_parity_bits` on a right-position codeword keeps exactly the
non-power positions, from the left (descending right position). -/
lemma remove_parity_bits_ofRight (n p : ℕ) (g : ℕ → Bool)
    (hp : ∀ l, l < p → 2 ^ l ≤ n) (hn : n < 2 ^ p) :
    remove_parity_bits (ofRight n g) p = (nonpows n).map g := by
  have hdef : remove_parity_bits (ofRight n g) p =
      (List.range (ofRight n g).length).foldl
        (fun decoded i =>
          if i ∈ ((List.range p).map (fun i => 2 ^ i)).map
              (fun i => (ofRight n g).length - i)
          then decoded else decoded ++ [(ofRight n g).getD i false]) [] := rfl
  rw [hdef, length_ofRight,
    foldl_filter_append
      (fun i => i ∈ ((List.range p).map (fun i => 2 ^ i)).map (fun i => n - i))
      (fun i => (ofRight n g).getD i false) (List.range n) [],
    List.nil_append]
  have hconv : (List.range n).filter
      (fun i => decide (¬ i ∈ ((List.range p).map (fun i => 2 ^ i)).map
        (fun i => n - i))) =
      (List.range n).filter (fun i => !(isPow2 (n - i))) := by
    apply List.filter_congr
    intro x hx
    rw [List.mem_range] at hx
    have hiff := mem_parity_positions n p x hp hn hx
    by_cases hmem : x ∈ ((List.range p).map (fun i => 2 ^ i)).map (fun i => n - i)
    · rw [decide_eq_false (not_not_intro hmem), hiff.mp hmem]
      rfl
    · have hfalse : isPow2 (n - x) = false := by
        rcases Bool.eq_false_or_eq_true (isPow2 (n - x)) with h | h
        · exact absurd (hiff.mpr h) hmem
        · exact h
      rw [decide_eq_true hmem, hfalse]
      rfl
  rw [hconv]
  have hmapc : ∀ x ∈ (List.range n).filter (fun i => !(isPow2 (n - i))),
      (ofRight n g).getD x false = g (n - x) := by
    intro x hx
    exact getD_ofRight n g x (List.mem_range.mp (List.mem_filter.mp hx).1)
  rw [List.map_congr_left hmapc]
  exact filter_nonpow_map g n

/-- Reading the non-power positions of the positioned codeword recovers the
data. -/
lemma nonpows_map_entry (data : List Bool) (p : ℕ)
    (hnum : numPows (data.length + p) = p) :
    (nonpows (data.length + p)).map (entryOf data) = data := by
  have h1 : (nonpows (data.length + p)).map (entryOf data) =
      (nonpows (data.length + p)).map (fun q => pyGet data (q - numPows q)) := by
    apply List.map_congr_left
    intro q hq
    obtain ⟨_, _, h3⟩ := nonpows_mem (data.length + p) q hq
    unfold entryOf
    rw [if_neg (by simp [h3])]
  have h2 : (fun q => pyGet data (q - numPows q)) =
      (pyGet data) ∘ (fun q => q - numPows q) := rfl
  rw [h1, h2, ← List.map_map, nonpows_map_sub (data.length + p), hnum]
  have h3 : data.length + p - p = data.length := by omega
  rw [h3, List.map_reverse, map_range'_reverse]
  exact ofRight_pyGet_self data

/-! ## The Hamming round trip -/

/-- C1: for every bit string `data` whose length admits a parity-bit count
(`calculate_parity_bits` returns `some p`), encoding via
`position_parity_bits` and `calculate_parity_values`, flipping exactly one
bit of the codeword at any position, then applying `detect_correct_error`
followed by `remove_parity_bits` recovers exactly `data`. -/
theorem hamming_roundtrip (data : List Bool) (p : ℕ)
    (hp : calculate_parity_bits data.length = some p)
    (pos : ℕ) (hpos : pos < data.length + p) :
    remove_parity_bits (detect_correct_error (add_noise
      (calculate_parity_values (position_parity_bits data p) p) pos) p) p =
      data := by
  have hb := calculate_parity_bits_aux_some_inv data.length 10 0 p hp
  have hb1 : data.length + p + 1 ≤ 2 ^ p := hb.2.1
  have hb2 : ∀ q, q < p → 2 ^ q < data.length + q + 1 :=
    fun q hq => hb.2.2 q (Nat.zero_le q) hq
  have hnlt : data.length + p < 2 ^ p := by omega
  have hple : ∀ i, i < p → 2 ^ i ≤ data.length + p := by
    intro i hi
    have h2 : 2 ^ i ≤ 2 ^ (p - 1) :=
      (Nat.pow_le_pow_iff_right (by omega)).mpr (by omega)
    have h3 : 2 ^ (p - 1) < data.length + (p - 1) + 1 := hb2 (p - 1) (by omega)
    omega
  have hnum : numPows (data.length + p) = p := by
    apply numPows_eq _ _ hnlt
    rcases Nat.eq_zero_or_pos p with h0 | h0
    · exact Or.inl h0
    · right
      have := hb2 (p - 1) (by omega)
      omega
  obtain ⟨g, hg, hoff, hpow⟩ :=
    calculate_parity_values_fold (data.length + p) (entryOf data) p hple
  have hstep1 : calculate_parity_values (position_parity_bits data p) p =
      ofRight (data.length + p) g := by
    rw [position_parity_bits_eq, calculate_parity_values_eq_fold, length_ofRight]
    exact hg
  have hentry : ∀ l, l < p → entryOf data (2 ^ l) = false := by
    intro l _
    unfold entryOf
    rw [if_pos (isPow2_pow l)]
  have hsyn0 : ∀ i, i < p → psum (data.length + p) g i = false :=
    syndrome_zero (data.length + p) (entryOf data) p g hple hnlt hentry hoff hpow
  have hq1 : 1 ≤ data.length + p - pos := by omega
  have hq2 : data.length + p - pos ≤ data.length + p := by omega
  have hsynflip : ∀ i, i < p →
      parity_val (ofRight (data.length + p)
        (updf g (data.length + p - pos) (!(g (data.length + p - pos))))) i =
      (data.length + p - pos).testBit i := by
    intro i hi
    rw [parity_val_ofRight, psum_updf _ g _ _ i hq1 hq2]
    cases htb : (data.length + p - pos).testBit i
    · rw [if_neg (fun hc => Bool.noConfusion hc)]
      exact hsyn0 i hi
    · rw [if_pos rfl, hsyn0 i hi]
      cases g (data.length + p - pos) <;> rfl
  have herr : error_pos (ofRight (data.length + p)
      (updf g (data.length + p - pos) (!(g (data.length + p - pos))))) p =
      data.length + p - pos :=
    error_pos_eq_of_testBit _ p _ hsynflip (by omega)
  have hlen2 := length_ofRight (data.length + p)
    (updf g (data.length + p - pos) (!(g (data.length + p - pos))))
  have hstep3 : detect_correct_error (ofRight (data.length + p)
      (updf g (data.length + p - pos) (!(g (data.length + p - pos))))) p =
      ofRight (data.length + p) g := by
    rw [detect_correct_error_of_pos _ p (by rw [herr]; omega)
      (by rw [herr, hlen2]; omega)]
    rw [herr, hlen2]
    have hpy : pyGet (ofRight (data.length + p)
        (updf g (data.length + p - pos) (!(g (data.length + p - pos)))))
        (data.length + p - pos) = !(g (data.length + p - pos)) := by
      rw [pyGet_ofRight _ _ _ hq1 hq2]
      unfold updf
      rw [if_pos rfl]
    rw [hpy, Bool.not_not,
      ofRight_set (data.length + p) _ (data.length + p - pos) _ hq1 hq2]
    apply ofRight_congr
    intro x hx1 hx2
    unfold updf
    by_cases hxq : x = data.length + p - pos
    · rw [if_pos hxq, hxq]
    · rw [if_neg hxq, if_neg hxq]
  have hmap : (nonpows (data.length + p)).map g =
      (nonpows (data.length + p)).map (entryOf data) := by
    apply List.map_congr_left
    intro q hq
    obtain ⟨_, _, hq3⟩ := nonpows_mem _ q hq
    apply hoff
    intro l _ hql
    rw [hql, isPow2_pow l] at hq3
    exact Bool.noConfusion hq3
  rw [hstep1, add_noise_ofRight (data.length + p) g pos hpos, hstep3,
    remove_parity_bits_ofRight (data.length + p) p g hple hnlt, hmap]
  exact nonpows_map_entry data p hnum

/-- Witness for C1 at the notebook demo: data `1101`, `p = 3`, noise at
left index 2 (the received word `1110110`). -/
theorem hamming_roundtrip_witness :
    remove_parity_bits (detect_correct_error (add_noise
      (calculate_parity_values
        (position_parity_bits [true, true, false, true] 3) 3) 2) 3) 3 =
      [true, true, false, true] :=
  hamming_roundtrip [true, true, false, true] 3 (by decide) 2 (by decide)

/-- C5: for a bit string `data` whose length admits a parity-bit count
`p`, the codeword built by `position_parity_bits` then
`calculate_parity_values` has length `m + p`, carries the bits of `data`
in order at the non-power-of-two positions (positions counted from 1 at
the right), holds at each position `2 ^ i` the XOR of all other bits whose
position index has bit `i` set, has zero syndrome, and is returned
unchanged by `detect_correct_error`. -/
theorem hamming_encode_properties (data : List Bool) (p : ℕ)
    (hp : calculate_parity_bits data.length = some p) :
    (calculate_parity_values (position_parity_bits data p) p).length =
      data.length + p ∧
    (nonpows (data.length + p)).map
      (pyGet (calculate_parity_values (position_parity_bits data p) p)) = data ∧
    (∀ i, i < p →
      pyGet (calculate_parity_values (position_parity_bits data p) p) (2 ^ i) =
        psum (data.length + p)
          (updf (pyGet (calculate_parity_values (position_parity_bits data p) p))
            (2 ^ i) false) i) ∧
    (∀ i, i < p →
      parity_val (calculate_parity_values (position_parity_bits data p) p) i =
        false) ∧
    detect_correct_error
        (calculate_parity_values (position_parity_bits data p) p) p =
      calculate_parity_values (position_parity_bits data p) p := by
  have hb := calculate_parity_bits_aux_some_inv data.length 10 0 p hp
  have hb1 : data.length + p + 1 ≤ 2 ^ p := hb.2.1
  have hb2 : ∀ q, q < p → 2 ^ q < data.length + q + 1 :=
    fun q hq => hb.2.2 q (Nat.zero_le q) hq
  have hnlt : data.length + p < 2 ^ p := by omega
  have hple : ∀ i, i < p → 2 ^ i ≤ data.length + p := by
    intro i hi
    have h2 : 2 ^ i ≤ 2 ^ (p - 1) :=
      (Nat.pow_le_pow_iff_right (by omega)).mpr (by omega)
    have h3 : 2 ^ (p - 1) < data.length + (p - 1) + 1 := hb2 (p - 1) (by omega)
    omega
  have hnum : numPows (data.length + p) = p := by
    apply numPows_eq _ _ hnlt
    rcases Nat.eq_zero_or_pos p with h0 | h0
    · exact Or.inl h0
    · right
      have := hb2 (p - 1) (by omega)
      omega
  obtain ⟨g, hg, hoff, hpow⟩ :=
    calculate_parity_values_fold (data.length + p) (entryOf data) p hple
  have hstep1 : calculate_parity_values (position_parity_bits data p) p =
      ofRight (data.length + p) g := by
    rw [position_parity_bits_eq, calculate_parity_values_eq_fold, length_ofRight]
    exact hg
  have hentry : ∀ l, l < p → entryOf data (2 ^ l) = false := by
    intro l _
    unfold entryOf
    rw [if_pos (isPow2_pow l)]
  have hsyn0 : ∀ i, i < p → psum (data.length + p) g i = false :=
    syndrome_zero (data.length + p) (entryOf data) p g hple hnlt hentry hoff hpow
  have hsynzero : ∀ i, i < p →
      parity_val (calculate_parity_values (position_parity_bits data p) p) i =
        false := by
    intro i hi
    rw [hstep1, parity_val_ofRight]
    exact hsyn0 i hi
  refine ⟨?_, ?_, ?_, hsynzero, ?_⟩
  · rw [hstep1, length_ofRight]
  · rw [hstep1]
    have hmapg : (nonpows (data.length + p)).map
        (pyGet (ofRight (data.length + p) g)) =
        (nonpows (data.length + p)).map (entryOf data) := by
      apply List.map_congr_left
      intro q hq
      obtain ⟨hm1, hm2, hm3⟩ := nonpows_mem _ q hq
      rw [pyGet_ofRight _ _ _ hm1 hm2]
      apply hoff
      intro l _ hql
      rw [hql, isPow2_pow l] at hm3
      exact Bool.noConfusion hm3
    rw [hmapg]
    exact nonpows_map_entry data p hnum
  · intro i hi
    have h2i : 2 ^ i ≤ data.length + p := hple i hi
    have h2i1 : (1 : ℕ) ≤ 2 ^ i := Nat.one_le_two_pow
    have hlhs : pyGet (calculate_parity_values (position_parity_bits data p) p)
        (2 ^ i) = psum (data.length + p) (entryOf data) i := by
      rw [hstep1, pyGet_ofRight _ _ _ h2i1 h2i]
      exact hpow i hi
    have hrhs : psum (data.length + p)
        (updf (pyGet (calculate_parity_values (position_parity_bits data p) p))
          (2 ^ i) false) i = psum (data.length + p) (entryOf data) i := by
      apply psum_congr
      intro x hx1 hx2 htb
      by_cases hx2i : x = 2 ^ i
      · unfold updf
        rw [if_pos hx2i, hx2i, hentry i hi]
      · unfold updf
        rw [if_neg hx2i, hstep1, pyGet_ofRight _ _ _ hx1 hx2]
        apply hoff
        intro l _ hxl
        rw [hxl, Nat.testBit_two_pow] at htb
        have : l = i := by simpa using htb
        exact hx2i (by rw [hxl, this])
    rw [hlhs, hrhs]
  · have herr0 : error_pos
        (calculate_parity_values (position_parity_bits data p) p) p = 0 := by
      apply error_pos_eq_of_testBit _ p 0
      · intro i hi
        rw [Nat.zero_testBit]
        exact hsynzero i hi
      · positivity
    exact detect_correct_error_of_zero _ p herr0

/-- Witness for C5 at the demo data `1101` with `p = 3`: length 7, data
recovery, the parity bit at position 2, a zero parity check, and the
unchanged correction pass. -/
theorem hamming_encode_properties_witness :
    (calculate_parity_values
      (position_parity_bits [true, true, false, true] 3) 3).length = 7 ∧
    (nonpows 7).map
      (pyGet (calculate_parity_values
        (position_parity_bits [true, true, false, true] 3) 3)) =
      [true, true, false, true] ∧
    pyGet (calculate_parity_values
        (position_parity_bits [true, true, false, true] 3) 3) 2 =
      psum 7 (updf (pyGet (calculate_parity_values
        (position_parity_bits [true, true, false, true] 3) 3)) 2 false) 1 ∧
    parity_val (calculate_parity_values
      (position_parity_bits [true, true, false, true] 3) 3) 2 = false ∧
    detect_correct_error (calculate_parity_values
        (position_parity_bits [true, true, false, true] 3) 3) 3 =
      calculate_parity_values
        (position_parity_bits [true, true, false, true] 3) 3 := by
  have h := hamming_encode_properties [true, true, false, true] 3 (by decide)
  exact ⟨h.1, h.2.1, h.2.2.1 1 (by decide), h.2.2.2.1 2 (by decide), h.2.2.2.2⟩

end BasicAlgebra
